import Mathlib

/-!
Verification of the backup-service orchestrator (src/main.go).

The Go program is shallowly embedded: pure path manipulation mirrors the
stdlib functions the source calls (filepath.Base, filepath.Ext,
filepath.Join with its lexical Clean, strings.TrimSuffix); stateful code
(local filesystem, remote object store) is explicit state passing; I/O
failure points are injected through an Env record of failure flags, one
per fallible call site of the source.  Bytes are List Nat; timestamps are
Int seconds; the gzip library (an external collaborator of the repo) is
modelled as an explicit framed codec with header, payload and trailer.
-/

set_option maxRecDepth 4096

/-! ## Go path functions, character level -/

/-- Split a character list on the separator, keeping empty pieces,
as the lexical path cleaner sees components. -/
def splitSlash (cs : List Char) : List (List Char) :=
  cs.foldr
    (fun c acc =>
      if c = '/' then [] :: acc
      else
        match acc with
        | [] => [[c]]
        | g :: gs => (c :: g) :: gs)
    [[]]

/-- One step of the lexical cleaner of Go path.Clean: empty and dot
components vanish, dot-dot pops the stack (kept when unrooted and the
stack is exhausted, dropped at the root), normal components push. -/
def cleanStep (rooted : Bool) (stack : List (List Char)) (comp : List Char) :
    List (List Char) :=
  if comp = [] ∨ comp = ['.'] then stack
  else if comp = ['.', '.'] then
    match stack with
    | [] => if rooted then [] else [['.', '.']]
    | top :: rest => if top = ['.', '.'] then comp :: stack else rest
  else comp :: stack

/-- Join cleaned components with the separator. -/
def joinSlash : List (List Char) → List Char
  | [] => []
  | [x] => x
  | x :: y :: xs => x ++ '/' :: joinSlash (y :: xs)

/-- Whether a path is rooted (begins with the separator). -/
def rootedOf (cs : List Char) : Bool :=
  match cs with
  | '/' :: _ => true
  | _ => false

/-- Reassemble a cleaned path from its root flag and joined body; an
empty relative result is a single dot, an empty rooted one the root. -/
def finishClean (r : Bool) (body : List Char) : List Char :=
  if r then '/' :: body
  else if body = [] then ['.'] else body

/-- Go filepath.Clean (unix separators), component-wise: split, process
with the dot and dot-dot rules, rejoin; the empty result is a single dot
for relative paths and the root for rooted ones. -/
def cleanChars (cs : List Char) : List Char :=
  if cs = [] then ['.']
  else
    finishClean (rootedOf cs)
      (joinSlash (((splitSlash cs).foldl (cleanStep (rootedOf cs)) []).reverse))

/-- Go filepath.Base (unix): empty path gives a dot, a path of only
separators gives the separator, otherwise the part after the final
separator once trailing separators are stripped. -/
def baseChars (cs : List Char) : List Char :=
  if cs = [] then ['.']
  else
    let r1 := cs.reverse.dropWhile (fun c => c = '/')
    if r1 = [] then ['/']
    else (r1.takeWhile (fun c => c ≠ '/')).reverse

/-- Go filepath.Ext: the suffix of the final path element starting at its
last dot, empty when the final element has no dot. -/
def extChars (cs : List Char) : List Char :=
  let seg := cs.reverse.takeWhile (fun c => c ≠ '/')
  if seg.contains '.' then (seg.takeWhile (fun c => c ≠ '.') ++ ['.']).reverse
  else []

/-- Go strings.TrimSuffix on character lists. -/
def trimSuffixChars (cs suf : List Char) : List Char :=
  if suf.isSuffixOf cs then cs.take (cs.length - suf.length) else cs

/-- filepath.Base on strings. -/
def goBase (s : String) : String := String.mk (baseChars s.toList)

/-- filepath.Ext on strings. -/
def goExt (s : String) : String := String.mk (extChars s.toList)

/-- strings.TrimSuffix on strings. -/
def trimSuffix (s suf : String) : String :=
  String.mk (trimSuffixChars s.toList suf.toList)

/-- filepath.Join of two elements: empty elements are dropped, the rest
are joined with a separator and cleaned, exactly as Go does. -/
def goJoin (a b : String) : String :=
  if a = "" ∧ b = "" then ""
  else if a = "" then String.mk (cleanChars b.toList)
  else if b = "" then String.mk (cleanChars a.toList)
  else String.mk (cleanChars (a.toList ++ '/' :: b.toList))

/-! ## gzip codec model

The gzip library is an external collaborator of the repository; it is
modelled as a framed codec: a fixed header, the payload, and a trailer
derived from the payload (checksum and length, as in the real format).
A stream is correctly finalized exactly when the trailer is present. -/

def gzipHeader : List Nat := [31, 139, 8]

def gzipTrailer (d : List Nat) : List Nat :=
  [d.foldl (fun a b => (a + b) % 4294967296) 0, d.length % 4294967296]

def gzipCompress (d : List Nat) : List Nat := gzipHeader ++ d ++ gzipTrailer d

def gzipDecompress (bs : List Nat) : Option (List Nat) :=
  if bs.take 3 = gzipHeader ∧ 5 ≤ bs.length then
    let rest := bs.drop 3
    let payload := rest.take (rest.length - 2)
    if rest.drop (rest.length - 2) = gzipTrailer payload then some payload
    else none
  else none

/-! ## Data model -/

/-- The subset of the Config record (main.go lines 21-30) the orchestrator
core reads; credential and endpoint fields feed only the external network
client and are omitted. -/
structure Config where
  DBPath : String
  HostDBPath : String
  BackupDir : String
  RetentionDays : Int
deriving DecidableEq

/-- One remote object as seen by list: key, last-modified timestamp
(seconds), stored bytes. -/
structure RObj where
  key : String
  lastModified : Int
  data : List Nat
deriving DecidableEq

/-- The bucket contents. -/
abbrev Store := List RObj

/-- Local filesystem: association list from path to file bytes. -/
abbrev FS := List (String × List Nat)

def fsRead (fs : FS) (p : String) : Option (List Nat) :=
  (fs.find? (fun e => e.1 == p)).map (fun e => e.2)

def fsWrite (fs : FS) (p : String) (d : List Nat) : FS :=
  (p, d) :: fs.filter (fun e => !(e.1 == p))

def fsRemove (fs : FS) (p : String) : FS :=
  fs.filter (fun e => !(e.1 == p))

/-- Error taxonomy of the per-stage failures (main.go error returns). -/
inductive BErr
  | snapshotErr
  | compressErr
  | uploadErr
  | listErr
deriving DecidableEq

/-- Failure injection: one flag per fallible I/O call site of the source.
gzipCloseFails models the deferred gzip Close (main.go line 137) failing
to write the trailer; the source discards that error. -/
structure Env where
  snapshotFails : Bool
  compressFails : Bool
  gzipCloseFails : Bool
  uploadFails : Bool
  listFails : Bool
  deleteFails : String → Bool

/-- The four orchestrator stages of one run. -/
inductive Stage
  | snapshot
  | compress
  | upload
  | prune
deriving DecidableEq

/-- Run outcome as reported by the log branches of runBackup. -/
inductive Outcome
  | success
  | backupFailed
  | compressionFailed
  | uploadFailed
deriving DecidableEq

structure PruneResult where
  err : Option BErr
  store : Store
  attempts : List String
deriving DecidableEq

structure RunResult where
  outcome : Outcome
  fs : FS
  store : Store
  stages : List Stage
  deleteAttempts : List String

/-! ## Operations (main.go) -/

/-- createBackup (main.go lines 97-121): mkdir of the destination
directory (directories are not modelled), open the source, create the
destination, copy.  An open or copy failure is reported; a verbatim copy
of the source bytes lands at backupPath on success. -/
def createBackup (env : Env) (fs : FS) (dbPath backupPath : String) :
    Option BErr × FS :=
  match fsRead fs dbPath with
  | none => (some .snapshotErr, fs)
  | some data =>
    if env.snapshotFails then (some .snapshotErr, fs)
    else (none, fsWrite fs backupPath data)

/-- compressFile (main.go lines 123-144): open the source, create the
destination, stream through the gzip writer.  The gzip Close runs
deferred (line 137) and its error is discarded by the source: when the
copy succeeds the function reports success even if the trailer write
fails, leaving header plus payload without the trailer at dstPath.  A
copy failure leaves the already-created destination behind, empty. -/
def compressFile (env : Env) (fs : FS) (srcPath dstPath : String) :
    Option BErr × FS :=
  match fsRead fs srcPath with
  | none => (some .compressErr, fs)
  | some data =>
    if env.compressFails then (some .compressErr, fsWrite fs dstPath [])
    else if env.gzipCloseFails then
      (none, fsWrite fs dstPath (gzipHeader ++ data))
    else (none, fsWrite fs dstPath (gzipCompress data))

/-- uploadToR2 (main.go lines 146-165): open the file, put it under the
key built at line 153 from the fixed bucket namespace and the base name
of the uploaded path; the stored object carries the put time as its
last-modified stamp. -/
def uploadToR2 (env : Env) (now : Int) (fs : FS) (store : Store)
    (filePath : String) : Option BErr × Store :=
  match fsRead fs filePath with
  | none => (some .uploadErr, store)
  | some data =>
    if env.uploadFails then (some .uploadErr, store)
    else (none, store ++ [⟨"backups/" ++ goBase filePath, now, data⟩])

/-- Listing predicate of the ListObjectsV2 call (main.go line 172): keys
under the fixed bucket namespace. -/
def underBackups (k : String) : Bool :=
  "backups/".toList.isPrefixOf k.toList

/-- Retention cutoff (main.go line 168): now minus RetentionDays days,
one day being 86400 seconds in the Int-seconds time model. -/
def cutoffOf (cfg : Config) (now : Int) : Int :=
  now - cfg.RetentionDays * 86400

/-- The delete loop of cleanupOldBackups (main.go lines 180-192): each
listed object strictly older than the cutoff has a delete issued for its
key; a failed delete is logged and the loop continues.  The issued
delete attempts are recorded. -/
def pruneLoop (env : Env) (cutoff : Int) :
    List RObj → Store → Store × List String
  | [], st => (st, [])
  | o :: rest, st =>
    if o.lastModified < cutoff then
      let st1 :=
        if env.deleteFails o.key then st
        else st.filter (fun x => !(x.key == o.key))
      let r := pruneLoop env cutoff rest st1
      (r.1, o.key :: r.2)
    else pruneLoop env cutoff rest st

/-- cleanupOldBackups (main.go lines 167-195): list under the fixed
namespace, delete the stale listed objects; a list failure is the only
error this function reports. -/
def cleanupOldBackups (env : Env) (cfg : Config) (now : Int)
    (store : Store) : PruneResult :=
  if env.listFails then ⟨some .listErr, store, []⟩
  else
    let listed := store.filter (fun o => underBackups o.key)
    let r := pruneLoop env (cutoffOf cfg now) listed store
    ⟨none, r.1, r.2⟩

/-- Logical backup name (main.go lines 250-252): base name of the
host-side source path with its extension stripped. -/
def dbNameOf (cfg : Config) : String :=
  trimSuffix (goBase cfg.HostDBPath) (goExt (goBase cfg.HostDBPath))

/-- Local staged path (main.go line 255). -/
def backupFileOf (cfg : Config) (ts : String) : String :=
  goJoin cfg.BackupDir (dbNameOf cfg ++ "_backup_" ++ ts ++ ".sql")

/-- Local compressed path (main.go line 256). -/
def compressedFileOf (cfg : Config) (ts : String) : String :=
  backupFileOf cfg ts ++ ".gz"

/-- Remote key a run uploads under: the line 153 key computation applied
to the compressed path. -/
def remoteKeyOf (cfg : Config) (ts : String) : String :=
  "backups/" ++ goBase (compressedFileOf cfg ts)

/-- runBackup (main.go lines 248-282).  ts is the second-resolution
formatted wall-clock of the run (line 254), now the same instant as Int
seconds.  Each stage failure logs and returns at once; the two local
removes run only after upload and the pruning attempt.  The begun stages
and the issued remote deletes are recorded for the temporal claims. -/
def runBackup (env : Env) (cfg : Config) (ts : String) (now : Int)
    (fs : FS) (store : Store) : RunResult :=
  let backupFile := backupFileOf cfg ts
  let compressedFile := compressedFileOf cfg ts
  let r1 := createBackup env fs cfg.DBPath backupFile
  match r1.1 with
  | some _ => ⟨.backupFailed, r1.2, store, [.snapshot], []⟩
  | none =>
    let r2 := compressFile env r1.2 backupFile compressedFile
    match r2.1 with
    | some _ => ⟨.compressionFailed, r2.2, store, [.snapshot, .compress], []⟩
    | none =>
      let r3 := uploadToR2 env now r2.2 store compressedFile
      match r3.1 with
      | some _ =>
        ⟨.uploadFailed, r2.2, r3.2, [.snapshot, .compress, .upload], []⟩
      | none =>
        let r4 := cleanupOldBackups env cfg now r3.2
        ⟨.success, fsRemove (fsRemove r2.2 backupFile) compressedFile,
          r4.store, [.snapshot, .compress, .upload, .prune], r4.attempts⟩

/-- The job body scheduleBackup registers as the daily cron callback
(main.go lines 201-237), translated from that closure: same name
derivation, same staged and compressed paths, same stage sequence with
an early return on each failure, same two final removes. -/
def scheduledBackupJob (env : Env) (cfg : Config) (ts : String) (now : Int)
    (fs : FS) (store : Store) : RunResult :=
  let backupFile := backupFileOf cfg ts
  let compressedFile := compressedFileOf cfg ts
  let r1 := createBackup env fs cfg.DBPath backupFile
  match r1.1 with
  | some _ => ⟨.backupFailed, r1.2, store, [.snapshot], []⟩
  | none =>
    let r2 := compressFile env r1.2 backupFile compressedFile
    match r2.1 with
    | some _ => ⟨.compressionFailed, r2.2, store, [.snapshot, .compress], []⟩
    | none =>
      let r3 := uploadToR2 env now r2.2 store compressedFile
      match r3.1 with
      | some _ =>
        ⟨.uploadFailed, r2.2, r3.2, [.snapshot, .compress, .upload], []⟩
      | none =>
        let r4 := cleanupOldBackups env cfg now r3.2
        ⟨.success, fsRemove (fsRemove r2.2 backupFile) compressedFile,
          r4.store, [.snapshot, .compress, .upload, .prune], r4.attempts⟩

/-- Stage trace each outcome of the source admits: every branch of
runBackup pairs one outcome with exactly one prefix of the full
snapshot, compress, upload, prune sequence. -/
def stagesFor : Outcome → List Stage
  | .backupFailed => [.snapshot]
  | .compressionFailed => [.snapshot, .compress]
  | .uploadFailed => [.snapshot, .compress, .upload]
  | .success => [.snapshot, .compress, .upload, .prune]

/-! ## Configuration parsing (loadConfig, main.go lines 48-53) -/

def digitsToNat (ds : List Char) : Nat :=
  ds.foldl (fun n c => n * 10 + (c.toNat - 48)) 0

/-- fmt.Sscanf with a decimal verb: skip leading blanks, optional sign,
then digits; anything after the digits is ignored, no digits is an
error.  No range restriction of any kind. -/
def scanInt (cs : List Char) : Option Int :=
  let cs1 := cs.dropWhile (fun c => c = ' ')
  let core := fun (l : List Char) =>
    let ds := l.takeWhile (fun c => c.isDigit)
    if ds = [] then none else some (Int.ofNat (digitsToNat ds))
  match cs1 with
  | '-' :: rest => (core rest).map (fun n => -n)
  | '+' :: rest => core rest
  | _ => core cs1

/-- RETENTION_DAYS handling of loadConfig: unset keeps the default 30,
otherwise whatever integer Sscanf reads is accepted unvalidated. -/
def retentionFromEnv (s : String) : Except String Int :=
  if s = "" then .ok 30
  else
    match scanInt s.toList with
    | some v => .ok v
    | none => .error "invalid RETENTION_DAYS"

/-! ## Path lemmas -/

theorem splitSlash_cons (c : Char) (cs : List Char) :
    splitSlash (c :: cs) =
      if c = '/' then [] :: splitSlash cs
      else
        match splitSlash cs with
        | [] => [[c]]
        | g :: gs => (c :: g) :: gs := rfl

theorem splitSlash_ne_nil (cs : List Char) : splitSlash cs ≠ [] := by
  induction cs with
  | nil => simp [splitSlash]
  | cons c cs ih =>
    rw [splitSlash_cons]
    split
    · simp
    · rcases h : splitSlash cs with _ | ⟨g, gs⟩
      · exact absurd h ih
      · simp [h]

theorem splitSlash_no_sep (b : List Char) (hb : ∀ c ∈ b, c ≠ '/') :
    splitSlash b = [b] := by
  induction b with
  | nil => rfl
  | cons c cs ih =>
    rw [splitSlash_cons, if_neg (hb c (List.mem_cons_self c cs)),
      ih (fun x hx => hb x (List.mem_cons_of_mem c hx))]

theorem splitSlash_append (a b : List Char) (hb : ∀ c ∈ b, c ≠ '/') :
    splitSlash (a ++ '/' :: b) = splitSlash a ++ [b] := by
  induction a with
  | nil =>
    simp only [List.nil_append]
    rw [splitSlash_cons, if_pos rfl, splitSlash_no_sep b hb]
    rfl
  | cons c a ih =>
    simp only [List.cons_append]
    rw [splitSlash_cons, ih, splitSlash_cons]
    by_cases hc : c = '/'
    · rw [if_pos hc, if_pos hc]
      rfl
    · rw [if_neg hc, if_neg hc]
      rcases h : splitSlash a with _ | ⟨g, gs⟩
      · exact absurd h (splitSlash_ne_nil a)
      · simp [h]

theorem cleanStep_normal (r : Bool) (st : List (List Char)) (comp : List Char)
    (h1 : comp ≠ []) (h2 : comp ≠ ['.']) (h3 : comp ≠ ['.', '.']) :
    cleanStep r st comp = comp :: st := by
  unfold cleanStep
  rw [if_neg (not_or.mpr ⟨h1, h2⟩), if_neg h3]

theorem joinSlash_cons2 (x y : List Char) (xs : List (List Char)) :
    joinSlash (x :: y :: xs) = x ++ '/' :: joinSlash (y :: xs) := rfl

theorem joinSlash_append_single (xs : List (List Char)) (hxs : xs ≠ [])
    (y : List Char) :
    joinSlash (xs ++ [y]) = joinSlash xs ++ '/' :: y := by
  induction xs with
  | nil => exact absurd rfl hxs
  | cons x xs ih =>
    cases xs with
    | nil => rfl
    | cons x2 xs2 =>
      simp only [List.cons_append]
      rw [joinSlash_cons2, joinSlash_cons2]
      rw [show x2 :: (xs2 ++ [y]) = (x2 :: xs2) ++ [y] from rfl,
        ih (by simp)]
      simp

theorem takeWhile_append_all (p : Char → Bool) (xs ys : List Char)
    (h : ∀ x ∈ xs, p x = true) :
    (xs ++ ys).takeWhile p = xs ++ ys.takeWhile p := by
  induction xs with
  | nil => simp
  | cons x xs ih =>
    simp only [List.cons_append, List.takeWhile_cons,
      h x (List.mem_cons_self x xs)]
    rw [ih (fun a ha => h a (List.mem_cons_of_mem x ha))]
    simp

theorem baseChars_append_last (pre w : List Char) (hw : w ≠ [])
    (hw2 : ∀ c ∈ w, c ≠ '/')
    (hpre : pre = [] ∨ ∃ p, pre = p ++ ['/']) :
    baseChars (pre ++ w) = w := by
  have hwr : w.reverse ≠ [] := by simpa using hw
  obtain ⟨c, t, hct⟩ := List.exists_cons_of_ne_nil hwr
  have hmemrev : ∀ x ∈ c :: t, x ≠ '/' := by
    intro x hx
    exact hw2 x (List.mem_reverse.mp (hct ▸ hx))
  have hc : c ≠ '/' := hmemrev c (List.mem_cons_self c t)
  unfold baseChars
  rw [if_neg (by simp [hw])]
  have hrev : (pre ++ w).reverse = c :: (t ++ pre.reverse) := by
    rw [List.reverse_append, hct]
    rfl
  rw [hrev]
  rw [List.dropWhile_cons]
  simp only [decide_eq_true_eq, hc, if_false]
  rw [if_neg (by simp)]
  have htake : (c :: (t ++ pre.reverse)).takeWhile (fun x => x ≠ '/') =
      c :: t := by
    rw [show c :: (t ++ pre.reverse) = (c :: t) ++ pre.reverse from rfl]
    rw [takeWhile_append_all _ _ _ (by intro x hx; simpa using hmemrev x hx)]
    rcases hpre with h | ⟨p, hp⟩
    · simp [h]
    · rw [hp]
      simp
  rw [htake, ← hct, List.reverse_reverse]

theorem rootedOf_cons_ne (c : Char) (t : List Char) (hc : c ≠ '/') :
    rootedOf (c :: t) = false := by
  unfold rootedOf
  split
  · next h =>
    rw [List.cons.injEq] at h
    exact absurd h.1 hc
  · rfl

theorem cleanChars_single (f : List Char) (hf : f ≠ [])
    (hf1 : f ≠ ['.']) (hf2 : f ≠ ['.', '.'])
    (hfs : ∀ c ∈ f, c ≠ '/') :
    cleanChars f = f := by
  obtain ⟨c, t, hct⟩ := List.exists_cons_of_ne_nil hf
  have hr : rootedOf f = false := by
    rw [hct]
    exact rootedOf_cons_ne c t
      (hfs c (by rw [hct]; exact List.mem_cons_self c t))
  unfold cleanChars
  rw [if_neg hf, hr, splitSlash_no_sep f hfs]
  simp only [List.foldl_cons, List.foldl_nil]
  rw [cleanStep_normal false [] f hf hf1 hf2]
  simp only [List.reverse_cons, List.reverse_nil, List.nil_append]
  rw [show joinSlash [f] = f from rfl]
  unfold finishClean
  simp [hf]

theorem cleanChars_append_normal (d f : List Char) (hd : d ≠ [])
    (hf : f ≠ []) (hf1 : f ≠ ['.']) (hf2 : f ≠ ['.', '.'])
    (hfs : ∀ c ∈ f, c ≠ '/') :
    ∃ pre, cleanChars (d ++ '/' :: f) = pre ++ f ∧
      (pre = [] ∨ ∃ p, pre = p ++ ['/']) := by
  have hne : d ++ '/' :: f ≠ [] := by simp
  unfold cleanChars
  rw [if_neg hne, splitSlash_append d f hfs, List.foldl_append]
  simp only [List.foldl_cons, List.foldl_nil]
  rw [cleanStep_normal _ _ f hf hf1 hf2]
  set r := rootedOf (d ++ '/' :: f) with hrdef
  set S := (splitSlash d).foldl (cleanStep r) [] with hSdef
  simp only [List.reverse_cons]
  rcases hS : S.reverse with _ | ⟨s, ss⟩
  · simp only [List.nil_append]
    rw [show joinSlash [f] = f from rfl]
    unfold finishClean
    cases r with
    | true => exact ⟨['/'], rfl, Or.inr ⟨[], rfl⟩⟩
    | false =>
      rw [if_neg hf]
      exact ⟨[], rfl, Or.inl rfl⟩
  · have hj : joinSlash (s :: ss ++ [f]) = joinSlash (s :: ss) ++ '/' :: f :=
      joinSlash_append_single (s :: ss) (by simp) f
    rw [hj]
    unfold finishClean
    cases r with
    | true =>
      refine ⟨'/' :: (joinSlash (s :: ss) ++ ['/']), ?_,
        Or.inr ⟨'/' :: joinSlash (s :: ss), by simp⟩⟩
      simp
    | false =>
      rw [if_neg (by simp)]
      exact ⟨joinSlash (s :: ss) ++ ['/'], by simp, Or.inr ⟨_, rfl⟩⟩

theorem toList_append (a b : String) :
    (a ++ b).toList = a.toList ++ b.toList := String.data_append a b

theorem mk_toList (s : String) : String.mk s.toList = s := rfl

/-- Base of a join followed by a pure extension: the final component
survives the lexical clean, so filepath.Base recovers exactly the file
name plus the appended extension. -/
theorem goBase_goJoin (dir f g : String)
    (hf : f.toList ≠ []) (hf1 : f.toList ≠ ['.']) (hf2 : f.toList ≠ ['.', '.'])
    (hfs : ∀ c ∈ f.toList, c ≠ '/')
    (hg : g.toList ≠ []) (hgs : ∀ c ∈ g.toList, c ≠ '/') :
    goBase (goJoin dir f ++ g) = f ++ g := by
  have hfgne : f.toList ++ g.toList ≠ [] :=
    fun h => hf (List.append_eq_nil.mp h).1
  have hfgs : ∀ c ∈ f.toList ++ g.toList, c ≠ '/' := by
    intro c hc
    rcases List.mem_append.mp hc with h | h
    · exact hfs c h
    · exact hgs c h
  have hbase : ∀ pre : List Char, (pre = [] ∨ ∃ p, pre = p ++ ['/']) →
      goBase (String.mk (pre ++ f.toList) ++ g) = f ++ g := by
    intro pre hpre
    unfold goBase
    rw [toList_append,
      show (String.mk (pre ++ f.toList)).toList = pre ++ f.toList from rfl,
      List.append_assoc,
      baseChars_append_last pre (f.toList ++ g.toList) hfgne hfgs hpre,
      ← toList_append, mk_toList]
  have hfne : f ≠ "" := by
    intro h
    exact hf (by rw [h]; rfl)
  by_cases hdir : dir = ""
  · have hjoin : goJoin dir f = String.mk ([] ++ f.toList) := by
      rw [hdir]
      unfold goJoin
      rw [if_neg (fun h => hfne h.2), if_pos rfl,
        cleanChars_single f.toList hf hf1 hf2 hfs, List.nil_append]
    rw [hjoin]
    exact hbase [] (Or.inl rfl)
  · have hdl : dir.toList ≠ [] := by
      intro h
      exact hdir (show dir = "" from congrArg String.mk h)
    have hjoin : goJoin dir f =
        String.mk (cleanChars (dir.toList ++ '/' :: f.toList)) := by
      unfold goJoin
      rw [if_neg (fun h => hdir h.1), if_neg hdir, if_neg hfne]
    obtain ⟨pre, hpre, hpre2⟩ :=
      cleanChars_append_normal dir.toList f.toList hdl hf hf1 hf2 hfs
    rw [hjoin, hpre]
    exact hbase pre hpre2

theorem baseChars_no_sep (cs : List Char) (h : baseChars cs ≠ ['/']) :
    ∀ c ∈ baseChars cs, c ≠ '/' := by
  intro c hc
  unfold baseChars at hc h
  by_cases h0 : cs = []
  · rw [if_pos h0] at hc
    simp at hc
    rw [hc]
    decide
  · rw [if_neg h0] at hc h
    by_cases h1 : cs.reverse.dropWhile (fun c => c = '/') = []
    · rw [if_pos h1] at h
      exact absurd rfl h
    · rw [if_neg h1] at hc
      have := List.mem_takeWhile_imp (List.mem_reverse.mp hc)
      simpa using this

theorem trimSuffixChars_subset (cs suf : List Char) :
    ∀ c ∈ trimSuffixChars cs suf, c ∈ cs := by
  intro c hc
  unfold trimSuffixChars at hc
  by_cases h : suf.isSuffixOf cs
  · rw [if_pos h] at hc
    exact List.take_subset _ cs hc
  · rw [if_neg h] at hc
    exact hc

/-- The logical backup name contains no separator whenever the host path
is not made of separators only. -/
theorem dbNameOf_no_sep (cfg : Config) (h : goBase cfg.HostDBPath ≠ "/") :
    ∀ c ∈ (dbNameOf cfg).toList, c ≠ '/' := by
  intro c hc
  have hb : baseChars cfg.HostDBPath.toList ≠ ['/'] := by
    intro he
    exact h (show goBase cfg.HostDBPath = "/" from congrArg String.mk he)
  unfold dbNameOf trimSuffix at hc
  exact baseChars_no_sep _ hb c (trimSuffixChars_subset _ _ c hc)

theorem string_eq_of_toList (a b : String) (h : a.toList = b.toList) :
    a = b := by
  cases a
  cases b
  exact congrArg String.mk h

/-- Claim C5: for every configuration whose host-side source path is not
made of separators only and every separator-free run timestamp, the
remote object key a run uploads under equals backups/ followed by the
host base name with its extension stripped, the backup marker,
the timestamp, and the .sql.gz ending. -/
theorem claim_C5_remote_key (cfg : Config) (ts : String)
    (h1 : goBase cfg.HostDBPath ≠ "/")
    (h2 : ∀ c ∈ ts.toList, c ≠ '/') :
    remoteKeyOf cfg ts =
      "backups/" ++ dbNameOf cfg ++ "_backup_" ++ ts ++ ".sql.gz" := by
  set fname := dbNameOf cfg ++ "_backup_" ++ ts ++ ".sql" with hfname
  have htl : fname.toList =
      (((dbNameOf cfg).toList ++ "_backup_".toList) ++ ts.toList)
        ++ ".sql".toList := by
    rw [hfname, toList_append, toList_append, toList_append]
  have hlen : 4 ≤ fname.toList.length := by
    rw [htl]
    simp [List.length_append]
    omega
  have hf : fname.toList ≠ [] := by
    intro h
    rw [h] at hlen
    simp at hlen
  have hf1 : fname.toList ≠ ['.'] := by
    intro h
    rw [h] at hlen
    simp at hlen
  have hf2 : fname.toList ≠ ['.', '.'] := by
    intro h
    rw [h] at hlen
    simp at hlen
  have hfs : ∀ c ∈ fname.toList, c ≠ '/' := by
    intro c hc
    rw [htl] at hc
    rcases List.mem_append.mp hc with hc | hc
    · rcases List.mem_append.mp hc with hc | hc
      · rcases List.mem_append.mp hc with hc | hc
        · exact dbNameOf_no_sep cfg h1 c hc
        · have hb : ∀ x ∈ "_backup_".toList, x ≠ '/' := by decide
          exact hb c hc
      · exact h2 c hc
    · have hs : ∀ x ∈ ".sql".toList, x ≠ '/' := by decide
      exact hs c hc
  have hkey : goBase (goJoin cfg.BackupDir fname ++ ".gz") =
      fname ++ ".gz" :=
    goBase_goJoin cfg.BackupDir fname ".gz" hf hf1 hf2 hfs
      (by decide) (by decide)
  unfold remoteKeyOf compressedFileOf backupFileOf
  rw [← hfname, hkey]
  apply string_eq_of_toList
  simp only [toList_append, htl]
  simp [List.append_assoc]

/-! ## Pruning lemmas -/

theorem pruneLoop_attempts (env : Env) (cutoff : Int) (listed : List RObj) :
    ∀ st, (pruneLoop env cutoff listed st).2 =
      (listed.filter (fun o => decide (o.lastModified < cutoff))).map
        RObj.key := by
  induction listed with
  | nil =>
    intro st
    rfl
  | cons o rest ih =>
    intro st
    simp only [pruneLoop, List.filter_cons]
    by_cases h : o.lastModified < cutoff
    · simp [h, ih]
    · simp [h, ih]

theorem pruneLoop_mem (env : Env) (cutoff : Int) (listed : List RObj) :
    ∀ st o, o ∈ (pruneLoop env cutoff listed st).1 ↔
      o ∈ st ∧ ∀ x ∈ listed, x.lastModified < cutoff →
        env.deleteFails x.key = false → x.key ≠ o.key := by
  induction listed with
  | nil =>
    intro st o
    simp [pruneLoop]
  | cons x0 rest ih =>
    intro st o
    simp only [pruneLoop]
    by_cases h : x0.lastModified < cutoff
    · rw [if_pos h]
      cases hd : env.deleteFails x0.key with
      | true =>
        simp only [hd, if_true]
        rw [ih st o]
        simp [List.forall_mem_cons, h, hd]
      | false =>
        simp only [hd, Bool.false_eq_true, if_false]
        rw [ih (st.filter (fun x => !(x.key == x0.key))) o]
        simp only [List.mem_filter, List.forall_mem_cons, h,
          eq_self_iff_true, true_implies]
        constructor
        · rintro ⟨⟨ho, hk⟩, hrest⟩
          refine ⟨ho, fun _ => ?_, hrest⟩
          intro he
          rw [he] at hk
          simp at hk
        · rintro ⟨ho, hx0, hrest⟩
          refine ⟨⟨ho, ?_⟩, hrest⟩
          have := hx0 (by simp [hd])
          simp [Ne.symm this]
    · rw [if_neg h]
      rw [ih st o]
      simp [List.forall_mem_cons, h]

/-! ## Filesystem lemmas -/

theorem fsRead_write_self (fs : FS) (p : String) (d : List Nat) :
    fsRead (fsWrite fs p d) p = some d := by
  simp [fsRead, fsWrite, List.find?_cons]

theorem fsRead_write_ne (fs : FS) (p : String) (d : List Nat) (q : String)
    (h : p ≠ q) : fsRead (fsWrite fs p d) q = fsRead fs q := by
  unfold fsRead fsWrite
  rw [List.find?_cons_of_neg _ (by simp [h])]
  induction fs with
  | nil => rfl
  | cons e fs ih =>
    by_cases hp : e.1 = p
    · rw [List.filter_cons_of_neg (by simp [hp]),
        List.find?_cons_of_neg _ (by simp [hp, h]), ih]
    · rw [List.filter_cons_of_pos (by simp [hp])]
      by_cases hq : e.1 = q
      · rw [List.find?_cons_of_pos _ (by simp [hq]),
          List.find?_cons_of_pos _ (by simp [hq])]
      · rw [List.find?_cons_of_neg _ (by simp [hq]),
          List.find?_cons_of_neg _ (by simp [hq]), ih]

theorem fsRead_remove_self (fs : FS) (p : String) :
    fsRead (fsRemove fs p) p = none := by
  induction fs with
  | nil => rfl
  | cons e fs ih =>
    unfold fsRemove at ih ⊢
    by_cases hp : e.1 = p
    · rw [List.filter_cons_of_neg (by simp [hp])]
      exact ih
    · rw [List.filter_cons_of_pos (by simp [hp])]
      unfold fsRead at ih ⊢
      rw [List.find?_cons_of_neg _ (by simp [hp])]
      exact ih

theorem fsRead_remove_other (fs : FS) (p q : String)
    (h : fsRead fs p = none) : fsRead (fsRemove fs q) p = none := by
  induction fs with
  | nil => rfl
  | cons e fs ih =>
    by_cases hp : e.1 = p
    · exfalso
      unfold fsRead at h
      rw [List.find?_cons_of_pos _ (by simp [hp])] at h
      simp at h
    · have h2 : fsRead fs p = none := by
        unfold fsRead at h ⊢
        rwa [List.find?_cons_of_neg _ (by simp [hp])] at h
      by_cases hq : e.1 = q
      · unfold fsRemove
        rw [List.filter_cons_of_neg (by simp [hq])]
        exact ih h2
      · unfold fsRemove
        rw [List.filter_cons_of_pos (by simp [hq])]
        unfold fsRead
        rw [List.find?_cons_of_neg _ (by simp [hp])]
        exact ih h2

theorem append_gz_ne (s : String) : s ++ ".gz" ≠ s := by
  intro h
  have hl := congrArg (fun t : String => t.toList.length) h
  simp [toList_append] at hl

/-! ## gzip roundtrip -/

theorem gzipTrailer_length (d : List Nat) : (gzipTrailer d).length = 2 := rfl

theorem gzip_roundtrip (d : List Nat) :
    gzipDecompress (gzipCompress d) = some d := by
  have hc : gzipCompress d = gzipHeader ++ (d ++ gzipTrailer d) := by
    simp [gzipCompress, List.append_assoc]
  have h3 : gzipHeader.length = 3 := rfl
  have htake : (gzipHeader ++ (d ++ gzipTrailer d)).take 3 = gzipHeader := by
    rw [← h3, List.take_left]
  have hdrop : (gzipHeader ++ (d ++ gzipTrailer d)).drop 3 =
      d ++ gzipTrailer d := by
    rw [← h3, List.drop_left]
  have hlen : (gzipHeader ++ (d ++ gzipTrailer d)).length = d.length + 5 := by
    simp [List.length_append, gzipTrailer_length, h3]
    omega
  have hrlen : (d ++ gzipTrailer d).length - 2 = d.length := by
    simp [List.length_append, gzipTrailer_length]
  rw [hc]
  unfold gzipDecompress
  rw [if_pos ⟨htake, by omega⟩]
  simp only [hdrop, hrlen]
  rw [List.take_left, List.drop_left]
  rw [if_pos rfl]

/-! ## Evaluation lemmas for the orchestrator -/

theorem createBackup_ok (env : Env) (fs : FS) (dbPath backupPath : String)
    (data : List Nat) (h1 : env.snapshotFails = false)
    (h5 : fsRead fs dbPath = some data) :
    createBackup env fs dbPath backupPath =
      (none, fsWrite fs backupPath data) := by
  simp [createBackup, h5, h1]

theorem compressFile_ok (env : Env) (fs : FS) (src dst : String)
    (data : List Nat) (h2 : env.compressFails = false)
    (h3 : env.gzipCloseFails = false) (h : fsRead fs src = some data) :
    compressFile env fs src dst = (none, fsWrite fs dst (gzipCompress data)) := by
  simp [compressFile, h, h2, h3]

theorem uploadToR2_ok (env : Env) (now : Int) (fs : FS) (store : Store)
    (filePath : String) (data : List Nat) (h4 : env.uploadFails = false)
    (h : fsRead fs filePath = some data) :
    uploadToR2 env now fs store filePath =
      (none, store ++ [⟨"backups/" ++ goBase filePath, now, data⟩]) := by
  simp [uploadToR2, h, h4]

/-- The object a fault-free run uploads. -/
def uploadedObj (cfg : Config) (ts : String) (now : Int) (d : List Nat) :
    RObj :=
  ⟨remoteKeyOf cfg ts, now, gzipCompress d⟩

theorem runBackup_ok (env : Env) (cfg : Config) (ts : String) (now : Int)
    (fs : FS) (store : Store) (data : List Nat)
    (h1 : env.snapshotFails = false) (h2 : env.compressFails = false)
    (h3 : env.gzipCloseFails = false) (h4 : env.uploadFails = false)
    (h5 : fsRead fs cfg.DBPath = some data) :
    runBackup env cfg ts now fs store =
      ⟨.success,
        fsRemove
          (fsRemove
            (fsWrite (fsWrite fs (backupFileOf cfg ts) data)
              (compressedFileOf cfg ts) (gzipCompress data))
            (backupFileOf cfg ts))
          (compressedFileOf cfg ts),
        (cleanupOldBackups env cfg now
          (store ++ [uploadedObj cfg ts now data])).store,
        [.snapshot, .compress, .upload, .prune],
        (cleanupOldBackups env cfg now
          (store ++ [uploadedObj cfg ts now data])).attempts⟩ := by
  simp only [runBackup]
  rw [createBackup_ok env fs cfg.DBPath (backupFileOf cfg ts) data h1 h5]
  rw [compressFile_ok env _ (backupFileOf cfg ts) (compressedFileOf cfg ts)
    data h2 h3 (fsRead_write_self fs (backupFileOf cfg ts) data)]
  rw [uploadToR2_ok env now _ store (compressedFileOf cfg ts)
    (gzipCompress data) h4
    (fsRead_write_self _ (compressedFileOf cfg ts) (gzipCompress data))]
  rfl

/-! ## Cleanup characterization -/

theorem underBackups_key (s : String) :
    underBackups ("backups/" ++ s) = true := by
  unfold underBackups
  rw [toList_append]
  exact List.isPrefixOf_iff_prefix.mpr (List.prefix_append _ _)

theorem cleanupOldBackups_err (env : Env) (cfg : Config) (now : Int)
    (store : Store) (h : env.listFails = false) :
    (cleanupOldBackups env cfg now store).err = none := by
  unfold cleanupOldBackups
  rw [if_neg (by simp [h])]

theorem cleanupOldBackups_attempts (env : Env) (cfg : Config) (now : Int)
    (store : Store) (h : env.listFails = false) :
    (cleanupOldBackups env cfg now store).attempts =
      ((store.filter (fun o => underBackups o.key)).filter
        (fun o => decide (o.lastModified < cutoffOf cfg now))).map RObj.key := by
  unfold cleanupOldBackups
  rw [if_neg (by simp [h])]
  exact pruneLoop_attempts env (cutoffOf cfg now) _ store

theorem cleanupOldBackups_mem (env : Env) (cfg : Config) (now : Int)
    (store : Store) (h : env.listFails = false) (o : RObj) :
    o ∈ (cleanupOldBackups env cfg now store).store ↔
      o ∈ store ∧ ∀ x ∈ store, underBackups x.key = true →
        x.lastModified < cutoffOf cfg now →
        env.deleteFails x.key = false → x.key ≠ o.key := by
  unfold cleanupOldBackups
  rw [if_neg (by simp [h])]
  show o ∈ (pruneLoop env (cutoffOf cfg now) _ store).1 ↔ _
  rw [pruneLoop_mem]
  constructor
  · rintro ⟨ho, hall⟩
    exact ⟨ho, fun x hx hub hlt hdf =>
      hall x (List.mem_filter.mpr ⟨hx, hub⟩) hlt hdf⟩
  · rintro ⟨ho, hall⟩
    refine ⟨ho, fun x hx hlt hdf => ?_⟩
    obtain ⟨hx1, hx2⟩ := List.mem_filter.mp hx
    exact hall x hx1 hx2 hlt hdf

/-! ## Concrete fixtures -/

def cfg0 : Config := ⟨"/data/app.db", "./data/app.db", "/backups", 30⟩

def cfgNeg : Config := ⟨"/data/app.db", "./data/app.db", "/backups", -1⟩

def ts0 : String := "20240301_020000"

def fs0 : FS := [("/data/app.db", [1, 2, 3])]

def envOK : Env := ⟨false, false, false, false, false, fun _ => false⟩

def envCompressFail : Env := ⟨false, true, false, false, false, fun _ => false⟩

def envUploadFail : Env := ⟨false, false, false, true, false, fun _ => false⟩

def envCloseFail : Env := ⟨false, false, true, false, false, fun _ => false⟩

def envDelFail : Env := ⟨false, false, false, false, false,
  fun k => k == "backups/old1"⟩

def storeOld : Store :=
  [⟨"backups/old1", -10000000, []⟩, ⟨"backups/old2", -10000000, []⟩,
   ⟨"backups/new", 900, []⟩, ⟨"other/x", -10000000, []⟩]

/-! ## Inversion lemmas for failure branches -/

theorem createBackup_none (env : Env) (fs : FS) (dbPath backupPath : String)
    (h : (createBackup env fs dbPath backupPath).1 = none) :
    ∃ data, fsRead fs dbPath = some data ∧
      (createBackup env fs dbPath backupPath).2 =
        fsWrite fs backupPath data := by
  unfold createBackup at h ⊢
  cases hr : fsRead fs dbPath with
  | none =>
    rw [hr] at h
    simp at h
  | some data =>
    rw [hr] at h
    cases hs : env.snapshotFails with
    | true =>
      rw [hs] at h
      simp at h
    | false => exact ⟨data, rfl, rfl⟩

theorem compressFile_none (env : Env) (fs : FS) (src dst : String)
    (h : (compressFile env fs src dst).1 = none) :
    ∃ data, fsRead fs src = some data ∧
      ((compressFile env fs src dst).2 = fsWrite fs dst (gzipCompress data) ∨
       (compressFile env fs src dst).2 =
         fsWrite fs dst (gzipHeader ++ data)) := by
  unfold compressFile at h ⊢
  cases hr : fsRead fs src with
  | none =>
    rw [hr] at h
    simp at h
  | some data =>
    rw [hr] at h
    cases hc : env.compressFails with
    | true =>
      rw [hc] at h
      simp at h
    | false =>
      cases hg : env.gzipCloseFails with
      | true => exact ⟨data, rfl, Or.inr rfl⟩
      | false => exact ⟨data, rfl, Or.inl rfl⟩

theorem compressedFileOf_ne (cfg : Config) (ts : String) :
    compressedFileOf cfg ts ≠ backupFileOf cfg ts :=
  append_gz_ne (backupFileOf cfg ts)

/-- Claim C1 as stated is false on the code: when compression fails, the
run ends with the staged file still on disk, because runBackup returns
before reaching the two removes. -/
theorem claim_C1_counterexample :
    (runBackup envCompressFail cfg0 ts0 1000 fs0 []).outcome =
      Outcome.compressionFailed ∧
    fsRead (runBackup envCompressFail cfg0 ts0 1000 fs0 []).fs
      (backupFileOf cfg0 ts0) = some [1, 2, 3] :=
  ⟨rfl, rfl⟩

/-- Claim C1 amended: the staged and compressed files are removed before
the run ends only when snapshot, compress, and upload all succeed; on a
stage failure runBackup returns at once without removing them, so after
an upload failure both local files remain on disk. -/
theorem claim_C1_cleanup_only_on_success (env : Env) (cfg : Config)
    (ts : String) (now : Int) (fs : FS) (store : Store) :
    ((runBackup env cfg ts now fs store).outcome = Outcome.success →
      fsRead (runBackup env cfg ts now fs store).fs
        (backupFileOf cfg ts) = none ∧
      fsRead (runBackup env cfg ts now fs store).fs
        (compressedFileOf cfg ts) = none) ∧
    ((runBackup env cfg ts now fs store).outcome = Outcome.uploadFailed →
      fsRead (runBackup env cfg ts now fs store).fs
        (backupFileOf cfg ts) ≠ none ∧
      fsRead (runBackup env cfg ts now fs store).fs
        (compressedFileOf cfg ts) ≠ none) := by
  simp only [runBackup]
  cases h1 : (createBackup env fs cfg.DBPath (backupFileOf cfg ts)).1 with
  | some e =>
    refine ⟨fun hc => ?_, fun hc => ?_⟩ <;> simp at hc
  | none =>
    obtain ⟨d1, hd1, hfs1⟩ := createBackup_none env fs cfg.DBPath
      (backupFileOf cfg ts) h1
    cases h2 : (compressFile env (createBackup env fs cfg.DBPath
        (backupFileOf cfg ts)).2 (backupFileOf cfg ts)
        (compressedFileOf cfg ts)).1 with
    | some e =>
      refine ⟨fun hc => ?_, fun hc => ?_⟩ <;> simp at hc
    | none =>
      obtain ⟨d2, hd2, hfs2⟩ := compressFile_none env _
        (backupFileOf cfg ts) (compressedFileOf cfg ts) h2
      cases h3 : (uploadToR2 env now (compressFile env (createBackup env fs
          cfg.DBPath (backupFileOf cfg ts)).2 (backupFileOf cfg ts)
          (compressedFileOf cfg ts)).2 store (compressedFileOf cfg ts)).1 with
      | some e =>
        refine ⟨fun hc => ?_, fun _ => ?_⟩
        · simp at hc
        · constructor
          · rcases hfs2 with hfs2 | hfs2 <;>
              rw [hfs2, fsRead_write_ne _ _ _ _ (compressedFileOf_ne cfg ts),
                hfs1, fsRead_write_self] <;> simp
          · rcases hfs2 with hfs2 | hfs2 <;>
              rw [hfs2, fsRead_write_self] <;> simp
      | none =>
        refine ⟨fun _ => ?_, fun hc => ?_⟩
        · exact ⟨fsRead_remove_other _ _ _ (fsRead_remove_self _ _),
            fsRead_remove_self _ _⟩
        · simp at hc

/-- Witness for the amended C1: a fault-free run leaves neither local
file behind, and a run failing at upload leaves both behind. -/
theorem claim_C1_witness :
    (fsRead (runBackup envOK cfg0 ts0 1000 fs0 []).fs
        (backupFileOf cfg0 ts0) = none ∧
      fsRead (runBackup envOK cfg0 ts0 1000 fs0 []).fs
        (compressedFileOf cfg0 ts0) = none) ∧
    (fsRead (runBackup envUploadFail cfg0 ts0 1000 fs0 []).fs
        (backupFileOf cfg0 ts0) ≠ none ∧
      fsRead (runBackup envUploadFail cfg0 ts0 1000 fs0 []).fs
        (compressedFileOf cfg0 ts0) ≠ none) :=
  ⟨(claim_C1_cleanup_only_on_success envOK cfg0 ts0 1000 fs0 []).1 rfl,
   (claim_C1_cleanup_only_on_success envUploadFail cfg0 ts0 1000 fs0 []).2 rfl⟩

/-- Claim C2: after one fault-free pruning pass, an object under the
fixed namespace remains in the bucket exactly when its last-modified
stamp is not strictly before the cutoff; strictly older objects are all
deleted and the others are untouched.  Keys are assumed distinct, as in
a real bucket listing. -/
theorem claim_C2_prune_exact (env : Env) (cfg : Config) (now : Int)
    (store : Store) (h1 : env.listFails = false)
    (h2 : ∀ k, env.deleteFails k = false)
    (h3 : (store.map RObj.key).Nodup) (o : RObj) (ho : o ∈ store)
    (hub : underBackups o.key = true) :
    o ∈ (cleanupOldBackups env cfg now store).store ↔
      cutoffOf cfg now ≤ o.lastModified := by
  rw [cleanupOldBackups_mem env cfg now store h1 o]
  constructor
  · rintro ⟨-, hall⟩
    by_contra hlt
    push_neg at hlt
    exact hall o ho hub hlt (h2 o.key) rfl
  · intro hge
    refine ⟨ho, fun x hx hxu hxlt hxdf he => ?_⟩
    have hxo : x = o := List.inj_on_of_nodup_map h3 hx ho he
    rw [hxo] at hxlt
    omega

/-- Witness for C2 at a concrete bucket: the object dated after the
cutoff remains in the store exactly as the theorem characterizes. -/
theorem claim_C2_witness :
    (⟨"backups/new", 900, []⟩ : RObj) ∈
        (cleanupOldBackups envOK cfg0 1000 storeOld).store ↔
      cutoffOf cfg0 1000 ≤ 900 :=
  claim_C2_prune_exact envOK cfg0 1000 storeOld rfl (fun _ => rfl)
    (by decide) ⟨"backups/new", 900, []⟩ (by decide) (by decide)

/-- Claim C3: within one run the begun stages are always exactly the
prefix of snapshot, compress, upload, prune dictated by the outcome; in
particular a failed upload means pruning is never begun. -/
theorem claim_C3_stage_sequence (env : Env) (cfg : Config) (ts : String)
    (now : Int) (fs : FS) (store : Store) :
    (runBackup env cfg ts now fs store).stages =
      stagesFor (runBackup env cfg ts now fs store).outcome := by
  simp only [runBackup]
  cases (createBackup env fs cfg.DBPath (backupFileOf cfg ts)).1 with
  | some e => rfl
  | none =>
    cases (compressFile env (createBackup env fs cfg.DBPath
        (backupFileOf cfg ts)).2 (backupFileOf cfg ts)
        (compressedFileOf cfg ts)).1 with
    | some e => rfl
    | none =>
      cases (uploadToR2 env now (compressFile env (createBackup env fs
          cfg.DBPath (backupFileOf cfg ts)).2 (backupFileOf cfg ts)
          (compressedFileOf cfg ts)).2 store (compressedFileOf cfg ts)).1 with
      | some e => rfl
      | none => rfl

/-- Claim C4: whatever per-object deletes fail, a run that reaches
pruning issues a delete attempt for every stale listed object, is
reported successful, and still removes both local files. -/
theorem claim_C4_delete_failure_isolated (env : Env) (cfg : Config)
    (ts : String) (now : Int) (fs : FS) (store : Store) (data : List Nat)
    (h1 : env.snapshotFails = false) (h2 : env.compressFails = false)
    (h3 : env.gzipCloseFails = false) (h4 : env.uploadFails = false)
    (h5 : env.listFails = false) (h6 : fsRead fs cfg.DBPath = some data) :
    (runBackup env cfg ts now fs store).outcome = Outcome.success ∧
    (runBackup env cfg ts now fs store).deleteAttempts =
      (((store ++ [uploadedObj cfg ts now data]).filter
          (fun o => underBackups o.key)).filter
        (fun o => decide (o.lastModified < cutoffOf cfg now))).map RObj.key ∧
    fsRead (runBackup env cfg ts now fs store).fs
      (backupFileOf cfg ts) = none ∧
    fsRead (runBackup env cfg ts now fs store).fs
      (compressedFileOf cfg ts) = none := by
  rw [runBackup_ok env cfg ts now fs store data h1 h2 h3 h4 h6]
  refine ⟨rfl, ?_, ?_, ?_⟩
  · exact cleanupOldBackups_attempts env cfg now _ h5
  · exact fsRead_remove_other _ _ _ (fsRead_remove_self _ _)
  · exact fsRead_remove_self _ _

/-- Witness for C4: with the delete of backups/old1 failing, both stale
objects still get delete attempts, the run is successful, and the local
files are removed. -/
theorem claim_C4_witness :
    (runBackup envDelFail cfg0 ts0 1000 fs0 storeOld).outcome =
      Outcome.success ∧
    (runBackup envDelFail cfg0 ts0 1000 fs0 storeOld).deleteAttempts =
      ["backups/old1", "backups/old2"] ∧
    fsRead (runBackup envDelFail cfg0 ts0 1000 fs0 storeOld).fs
      (backupFileOf cfg0 ts0) = none := by
  have h := claim_C4_delete_failure_isolated envDelFail cfg0 ts0 1000 fs0
    storeOld [1, 2, 3] rfl rfl rfl rfl rfl (by decide)
  exact ⟨h.1, h.2.1.trans (by decide), h.2.2.1⟩

/-- Witness for C5 at the example scenario of the specification. -/
theorem claim_C5_witness :
    remoteKeyOf cfg0 ts0 =
      "backups/" ++ dbNameOf cfg0 ++ "_backup_" ++ ts0 ++ ".sql.gz" :=
  claim_C5_remote_key cfg0 ts0 (by decide) (by decide)

/-- Claim C6 as stated is false on the code: when the deferred gzip
close fails, compressFile still reports success although the trailer was
never written, and the run uploads the unfinalized file. -/
theorem claim_C6_counterexample :
    (compressFile envCloseFail [("s", [1, 2, 3])] "s" "d").1 = none ∧
    (fsRead (compressFile envCloseFail [("s", [1, 2, 3])] "s" "d").2
        "d").bind gzipDecompress = none ∧
    (runBackup envCloseFail cfg0 ts0 1000 fs0 []).outcome =
      Outcome.success ∧
    (runBackup envCloseFail cfg0 ts0 1000 fs0 []).store =
      [⟨remoteKeyOf cfg0 ts0, 1000, gzipHeader ++ [1, 2, 3]⟩] :=
  ⟨rfl, rfl, rfl, rfl⟩

/-- Claim C6 amended: compressFile reports success exactly when the
source opens and the copy succeeds; the deferred close error is
discarded, so the trailer is written only when that close succeeds, and
a destination whose trailer write failed is still reported complete
(holding strictly less than the finalized stream). -/
theorem claim_C6_close_error_ignored (env : Env) (fs : FS)
    (src dst : String) (data : List Nat) (h : fsRead fs src = some data)
    (h2 : env.compressFails = false) :
    (compressFile env fs src dst).1 = none ∧
    (env.gzipCloseFails = false →
      fsRead (compressFile env fs src dst).2 dst =
        some (gzipCompress data) ∧
      gzipDecompress (gzipCompress data) = some data) ∧
    (env.gzipCloseFails = true →
      fsRead (compressFile env fs src dst).2 dst =
        some (gzipHeader ++ data) ∧
      gzipHeader ++ data ≠ gzipCompress data) := by
  unfold compressFile
  rw [h]
  simp only [h2, Bool.false_eq_true, if_false]
  cases hg : env.gzipCloseFails with
  | true =>
    refine ⟨rfl, fun hc => by simp at hc, fun _ => ⟨fsRead_write_self _ _ _, ?_⟩⟩
    intro he
    have hl := congrArg List.length he
    simp [gzipCompress, gzipTrailer_length, List.length_append] at hl
  | false =>
    exact ⟨rfl, fun _ => ⟨fsRead_write_self _ _ _, gzip_roundtrip data⟩,
      fun hc => by simp at hc⟩

/-- Witness for the amended C6: a concrete compress run with a failing
close reports success while the destination lacks the trailer. -/
theorem claim_C6_witness :
    (compressFile envCloseFail [("s", [1, 2, 3])] "s" "d").1 = none ∧
    fsRead (compressFile envCloseFail [("s", [1, 2, 3])] "s" "d").2 "d" =
      some (gzipHeader ++ [1, 2, 3]) := by
  have h := claim_C6_close_error_ignored envCloseFail [("s", [1, 2, 3])]
    "s" "d" [1, 2, 3] (by decide) rfl
  exact ⟨h.1, (h.2.2 rfl).1⟩

/-- Claim C7: a pruning pass never adds objects, never touches an object
outside the fixed backups namespace, and only issues deletes for keys
inside that namespace. -/
theorem claim_C7_frame (env : Env) (cfg : Config) (now : Int)
    (store : Store) :
    (∀ o ∈ (cleanupOldBackups env cfg now store).store, o ∈ store) ∧
    (∀ o ∈ store, underBackups o.key = false →
      o ∈ (cleanupOldBackups env cfg now store).store) ∧
    (∀ k ∈ (cleanupOldBackups env cfg now store).attempts,
      underBackups k = true) := by
  cases hl : env.listFails with
  | true =>
    unfold cleanupOldBackups
    simp only [hl, if_true]
    exact ⟨fun o ho => ho, fun o ho _ => ho, by simp⟩
  | false =>
    refine ⟨?_, ?_, ?_⟩
    · intro o ho
      exact ((cleanupOldBackups_mem env cfg now store hl o).mp ho).1
    · intro o ho hub
      refine (cleanupOldBackups_mem env cfg now store hl o).mpr
        ⟨ho, fun x hx hxu hxlt hxdf he => ?_⟩
      rw [he] at hxu
      simp [hub] at hxu
    · rw [cleanupOldBackups_attempts env cfg now store hl]
      intro k hk
      simp only [List.mem_map] at hk
      obtain ⟨o, ho, hko⟩ := hk
      obtain ⟨ho1, -⟩ := List.mem_filter.mp ho
      obtain ⟨-, ho2⟩ := List.mem_filter.mp ho1
      rw [← hko]
      exact ho2

/-- Witness for C7: the object outside the backups namespace survives a
concrete pruning pass although it is far older than the cutoff. -/
theorem claim_C7_witness :
    (⟨"other/x", -10000000, []⟩ : RObj) ∈
      (cleanupOldBackups envOK cfg0 1000 storeOld).store :=
  (claim_C7_frame envOK cfg0 1000 storeOld).2.1
    ⟨"other/x", -10000000, []⟩ (by decide) (by decide)

/-- Claim C8: snapshotting a readable source to the staged path, then
compressing to a distinct compressed path, then decompressing yields the
original source bytes. -/
theorem claim_C8_roundtrip (env : Env) (fs : FS)
    (src staged compressed : String) (data : List Nat)
    (h1 : env.snapshotFails = false) (h2 : env.compressFails = false)
    (h3 : env.gzipCloseFails = false)
    (h4 : fsRead fs src = some data) (h5 : staged ≠ compressed) :
    (createBackup env fs src staged).1 = none ∧
    (compressFile env (createBackup env fs src staged).2 staged
      compressed).1 = none ∧
    (fsRead (compressFile env (createBackup env fs src staged).2 staged
        compressed).2 compressed).bind gzipDecompress = some data := by
  rw [createBackup_ok env fs src staged data h1 h4]
  rw [compressFile_ok env _ staged compressed data h2 h3
    (fsRead_write_self fs staged data)]
  refine ⟨rfl, rfl, ?_⟩
  rw [fsRead_write_self]
  simp [gzip_roundtrip data]

/-- Witness for C8 on a concrete file. -/
theorem claim_C8_witness :
    (createBackup envOK [("s", [5, 6])] "s" "st").1 = none ∧
    (compressFile envOK (createBackup envOK [("s", [5, 6])] "s" "st").2
      "st" "c").1 = none ∧
    (fsRead (compressFile envOK (createBackup envOK [("s", [5, 6])] "s"
        "st").2 "st" "c").2 "c").bind gzipDecompress = some [5, 6] :=
  claim_C8_roundtrip envOK [("s", [5, 6])] "s" "st" "c" [5, 6]
    rfl rfl rfl (by decide) (by decide)

/-- Claim C9: the retention parser accepts any scanned integer with no
range check, and a configuration carrying a parsed negative retention
makes the cutoff lie in the future, so a fault-free run deletes every
object under the backups namespace, the object it just uploaded
included. -/
theorem claim_C9_negative_retention (s : String) (d : Int) (env : Env)
    (cfg : Config) (ts : String) (now : Int) (fs : FS) (store : Store)
    (data : List Nat)
    (hp : retentionFromEnv s = Except.ok d) (hneg : d < 0)
    (hcfg : cfg.RetentionDays = d)
    (h1 : env.snapshotFails = false) (h2 : env.compressFails = false)
    (h3 : env.gzipCloseFails = false) (h4 : env.uploadFails = false)
    (h5 : env.listFails = false) (h6 : ∀ k, env.deleteFails k = false)
    (h7 : fsRead fs cfg.DBPath = some data)
    (h8 : ∀ o ∈ store, o.lastModified ≤ now) :
    (runBackup env cfg ts now fs store).outcome = Outcome.success ∧
    ∀ o ∈ (runBackup env cfg ts now fs store).store,
      underBackups o.key = false := by
  rw [runBackup_ok env cfg ts now fs store data h1 h2 h3 h4 h7]
  refine ⟨rfl, ?_⟩
  intro o ho
  by_contra hub
  have hub2 : underBackups o.key = true := by
    cases hu : underBackups o.key
    · exact absurd hu hub
    · rfl
  obtain ⟨ho2, hall⟩ :=
    (cleanupOldBackups_mem env cfg now _ h5 o).mp ho
  have hlm : o.lastModified ≤ now := by
    rcases List.mem_append.mp ho2 with hm | hm
    · exact h8 o hm
    · have : o = uploadedObj cfg ts now data := by simpa using hm
      rw [this]
      exact le_refl now
  have hprod : d * 86400 < 0 :=
    mul_neg_of_neg_of_pos hneg (by norm_num)
  have hcut : now < cutoffOf cfg now := by
    unfold cutoffOf
    rw [hcfg]
    omega
  exact hall o ho2 hub2 (by omega) (h6 o.key) rfl

/-- Witness for C9: retention parsed from the string -1 is accepted, and
the run deletes everything under the namespace, the fresh upload too. -/
theorem claim_C9_witness :
    (runBackup envOK cfgNeg ts0 1000 fs0 storeOld).outcome =
      Outcome.success ∧
    ∀ o ∈ (runBackup envOK cfgNeg ts0 1000 fs0 storeOld).store,
      underBackups o.key = false :=
  claim_C9_negative_retention "-1" (-1) envOK cfgNeg ts0 1000 fs0 storeOld
    [1, 2, 3] rfl (by decide) rfl rfl rfl rfl rfl rfl
    (fun _ => rfl) (by decide) (by decide)

/-- Claim C10: the job body the scheduler registers for the daily cron
trigger and the startup runBackup are the same function of the
configuration, clock, filesystem, and store. -/
theorem claim_C10_scheduled_equals_startup (env : Env) (cfg : Config)
    (ts : String) (now : Int) (fs : FS) (store : Store) :
    scheduledBackupJob env cfg ts now fs store =
      runBackup env cfg ts now fs store := rfl
